import Mathlib

/-!
Verification of the hazard-to-time-share numerical routines of the
nursing-home inspection dashboard repository (`mechanism.py`).

The three routines under study are:
* `expected_cycle_length_from_hazard` — approximates E[L] = Σ_w S(w)
  with early termination once the survival value drops below 1e-10;
* `scale_hazard_to_target_length` — 60-step bisection on a scalar
  multiplier m so that `clip(m·shape, 0, 0.999)` has expected cycle
  length near a target, with a flat `1/L` fallback for all-zero shapes;
* `time_share_from_hazard` — the survival sequence normalized to a
  probability distribution π.

The embedding replaces IEEE floating point by exact rational arithmetic
(`ℚ`); loop structure, the `h[-1]` extension of the hazard array past its
end, the `1e-10` early-stop threshold, the `[0, 0.999]` clipping and the
bisection bracket `[0, 50]` with 60 iterations are kept exactly as in the
source. Hazard arrays are `List ℚ`.
-/

/-- The early-termination threshold `1e-10` from the source loops. -/
def eps : ℚ := 1 / 10000000000

/-- `h[w] if w < len(h) else h[-1]`: the hazard array extended past its end
with its last value.  (On an empty list the Python code raises; the `0`
default is never reached in any theorem below, which all assume `h ≠ []`.) -/
def hazardAt (h : List ℚ) (w : Nat) : ℚ :=
  if hw : w < h.length then h.get ⟨w, hw⟩ else (h.getLast?).getD 0

/-- The loop of `expected_cycle_length_from_hazard`: starting from week `w`
with survival `S`, add `S` each iteration, multiply `S` by `1 - h[w]`, and
stop when the survival drops below `eps` or the fuel (remaining horizon)
runs out. -/
def eclGo (h : List ℚ) : Nat → Nat → ℚ → ℚ
  | 0, _, _ => 0
  | fuel + 1, w, S =>
      let S2 := S * (1 - hazardAt h w)
      S + (if S2 < eps then 0 else eclGo h fuel (w + 1) S2)

/-- `expected_cycle_length_from_hazard(h, horizon)` from the source. -/
def expected_cycle_length_from_hazard (h : List ℚ) (horizon : Nat) : ℚ :=
  eclGo h horizon 0 1

/-- The loop of `time_share_from_hazard`: the list `S_vals` of survival
values accumulated before normalization. -/
def survGo (h : List ℚ) : Nat → Nat → ℚ → List ℚ
  | 0, _, _ => []
  | fuel + 1, w, S =>
      let S2 := S * (1 - hazardAt h w)
      S :: (if S2 < eps then [] else survGo h fuel (w + 1) S2)

/-- `time_share_from_hazard(h, horizon)` from the source: the survival
values divided by their sum. -/
def time_share_from_hazard (h : List ℚ) (horizon : Nat) : List ℚ :=
  (survGo h horizon 0 1).map (fun s => s / (survGo h horizon 0 1).sum)

/-- `np.clip(x, 0.0, 0.999)`. -/
def clip01 (x : ℚ) : ℚ := max 0 (min x (999 / 1000))

/-- `np.clip(m * shape, 0.0, 0.999)`, the candidate hazard tried by the
bisection and returned by `scale_hazard_to_target_length`. -/
def scaledHazard (shape : List ℚ) (m : ℚ) : List ℚ :=
  shape.map (fun s => clip01 (m * s))

/-- The bisection loop of `scale_hazard_to_target_length`: `n` iterations
on the bracket `(lo, hi)`; the expected cycle length is evaluated with the
default horizon 400, and `EL > target_len` moves `lo` up, otherwise `hi`
moves down. -/
def bisectGo (shape : List ℚ) (target : ℚ) : Nat → ℚ × ℚ → ℚ × ℚ
  | 0, p => p
  | n + 1, (lo, hi) =>
      let mid := (lo + hi) / 2
      if target < expected_cycle_length_from_hazard (scaledHazard shape mid) 400
      then bisectGo shape target n (mid, hi)
      else bisectGo shape target n (lo, mid)

/-- `scale_hazard_to_target_length(shape, target_len)` from the source:
negative shape entries are clipped to 0 (`np.clip(shape, 0.0, None)`); an
all-zero shape (detected via `shape.max() == 0`, where the `0` seed of the
fold is neutral since every clipped entry is `≥ 0`) falls back to a flat
`1/target` array; otherwise 60 bisection steps on `[0, 50]` and the final
`hi` multiplier is applied. -/
def scale_hazard_to_target_length (shape : List ℚ) (target : ℚ) : List ℚ :=
  let shape2 := shape.map (fun s => max s 0)
  if shape2.foldr max 0 = 0 then shape2.map (fun _ => 1 / target)
  else scaledHazard shape2 (bisectGo shape2 target 60 (0, 50)).2

/-! ### Basic lemmas about the embedded routines -/

lemma eps_pos : 0 < eps := by norm_num [eps]

lemma hazardAt_of_lt {h : List ℚ} {w : Nat} (hw : w < h.length) :
    hazardAt h w = h.get ⟨w, hw⟩ := dif_pos hw

lemma hazardAt_of_ge {h : List ℚ} {w : Nat} (hw : ¬ w < h.length) :
    hazardAt h w = (h.getLast?).getD 0 := dif_neg hw

lemma hazardAt_mem {h : List ℚ} (hne : h ≠ []) (w : Nat) : hazardAt h w ∈ h := by
  unfold hazardAt
  split
  · exact List.get_mem h _ _
  · rw [List.getLast?_eq_getLast h hne]
    exact List.getLast_mem hne

lemma clip01_nonneg (x : ℚ) : 0 ≤ clip01 x := le_max_left 0 _

lemma clip01_le (x : ℚ) : clip01 x ≤ 999 / 1000 := by
  unfold clip01
  rw [max_le_iff]
  exact ⟨by norm_num, min_le_right x _⟩

lemma clip01_mono {x y : ℚ} (hxy : x ≤ y) : clip01 x ≤ clip01 y :=
  max_le_max le_rfl (min_le_min hxy le_rfl)

lemma survGo_nonneg {h : List ℚ} (hb : ∀ w, hazardAt h w ≤ 1) :
    ∀ (fuel w : Nat) (S : ℚ), 0 ≤ S → ∀ x ∈ survGo h fuel w S, 0 ≤ x := by
  intro fuel
  induction fuel with
  | zero => intro w S _ x hx; simp [survGo] at hx
  | succ n ih =>
      intro w S hS x hx
      simp only [survGo, List.mem_cons] at hx
      rcases hx with rfl | hx
      · exact hS
      · split at hx
        · simp at hx
        · exact ih (w + 1) _ (mul_nonneg hS (by linarith [hb w])) x hx

lemma survGo_pos {h : List ℚ} (hb : ∀ w, hazardAt h w < 1) :
    ∀ (fuel w : Nat) (S : ℚ), 0 < S → ∀ x ∈ survGo h fuel w S, 0 < x := by
  intro fuel
  induction fuel with
  | zero => intro w S _ x hx; simp [survGo] at hx
  | succ n ih =>
      intro w S hS x hx
      simp only [survGo, List.mem_cons] at hx
      rcases hx with rfl | hx
      · exact hS
      · split at hx
        · simp at hx
        · exact ih (w + 1) _ (mul_pos hS (by linarith [hb w])) x hx

lemma survGo_ne_nil (h : List ℚ) (fuel w : Nat) (S : ℚ) (hf : 0 < fuel) :
    survGo h fuel w S ≠ [] := by
  cases fuel with
  | zero => exact absurd hf (by simp)
  | succ n => simp [survGo]

lemma sum_map_div (l : List ℚ) (c : ℚ) :
    (l.map (fun s => s / c)).sum = l.sum / c := by
  induction l with
  | nil => simp
  | cons a t ih => simp [ih, add_div]

/-- The two loops traverse the same recurrence: the expected-cycle-length
accumulator equals the sum of the survival values collected by `survGo`. -/
lemma eclGo_eq_sum_survGo (h : List ℚ) :
    ∀ (fuel w : Nat) (S : ℚ), eclGo h fuel w S = (survGo h fuel w S).sum := by
  intro fuel
  induction fuel with
  | zero => intro w S; simp [eclGo, survGo]
  | succ n ih =>
      intro w S
      simp only [eclGo, survGo, List.sum_cons]
      split
      · simp
      · rw [ih]

lemma eclGo_nonneg {h : List ℚ} (hb : ∀ w, hazardAt h w ≤ 1) :
    ∀ (fuel w : Nat) (S : ℚ), 0 ≤ S → 0 ≤ eclGo h fuel w S := by
  intro fuel
  induction fuel with
  | zero => intro w S _; simp [eclGo]
  | succ n ih =>
      intro w S hS
      simp only [eclGo]
      have h2 : (0:ℚ) ≤ S * (1 - hazardAt h w) :=
        mul_nonneg hS (by linarith [hb w])
      split
      · linarith
      · linarith [ih (w + 1) _ h2]

/-- Pointwise larger hazards give a pointwise smaller expected-cycle-length
accumulator: the survival recurrence and the early stop both move the same
way. -/
lemma eclGo_mono {hA hB : List ℚ} (hAB : ∀ w, hazardAt hA w ≤ hazardAt hB w)
    (hB1 : ∀ w, hazardAt hB w ≤ 1) :
    ∀ (fuel w : Nat) (S1 S2 : ℚ), 0 ≤ S2 → S2 ≤ S1 →
      eclGo hB fuel w S2 ≤ eclGo hA fuel w S1 := by
  have hA1 : ∀ w, hazardAt hA w ≤ 1 := fun w => (hAB w).trans (hB1 w)
  intro fuel
  induction fuel with
  | zero => intro w S1 S2 _ _; simp [eclGo]
  | succ n ih =>
      intro w S1 S2 hS2 hS12
      simp only [eclGo]
      have hq : (0:ℚ) ≤ 1 - hazardAt hB w := by linarith [hB1 w]
      have hstep : S2 * (1 - hazardAt hB w) ≤ S1 * (1 - hazardAt hA w) :=
        mul_le_mul hS12 (by linarith [hAB w]) hq (le_trans hS2 hS12)
      have hs2 : (0:ℚ) ≤ S2 * (1 - hazardAt hB w) := mul_nonneg hS2 hq
      by_cases hbrk : S2 * (1 - hazardAt hB w) < eps
      · rw [if_pos hbrk]
        have hR : (0:ℚ) ≤ (if S1 * (1 - hazardAt hA w) < eps then 0
            else eclGo hA n (w + 1) (S1 * (1 - hazardAt hA w))) := by
          split
          · exact le_refl 0
          · exact eclGo_nonneg hA1 n (w + 1) _ (le_trans hs2 hstep)
        linarith
      · rw [if_neg hbrk]
        have hbrk1 : ¬ S1 * (1 - hazardAt hA w) < eps := by
          intro hc; exact hbrk (lt_of_le_of_lt hstep hc)
        rw [if_neg hbrk1]
        have := ih (w + 1) (S1 * (1 - hazardAt hA w)) (S2 * (1 - hazardAt hB w)) hs2 hstep
        linarith

lemma eclGo_congr {h1 h2 : List ℚ} (hh : ∀ w, hazardAt h1 w = hazardAt h2 w) :
    ∀ (fuel w : Nat) (S : ℚ), eclGo h1 fuel w S = eclGo h2 fuel w S := by
  intro fuel
  induction fuel with
  | zero => intro w S; simp [eclGo]
  | succ n ih =>
      intro w S
      simp only [eclGo, hh w]
      split
      · rfl
      · rw [ih]

lemma survGo_congr {h1 h2 : List ℚ} (hh : ∀ w, hazardAt h1 w = hazardAt h2 w) :
    ∀ (fuel w : Nat) (S : ℚ), survGo h1 fuel w S = survGo h2 fuel w S := by
  intro fuel
  induction fuel with
  | zero => intro w S; simp [survGo]
  | succ n ih =>
      intro w S
      simp only [survGo, hh w]
      split
      · rfl
      · rw [ih]

/-- On a constant hazard array the extended hazard is that constant at
every week. -/
lemma hazardAt_replicate (n : Nat) (c : ℚ) (hn : 1 ≤ n) (w : Nat) :
    hazardAt (List.replicate n c) w = c := by
  unfold hazardAt
  split
  · simp
  · rw [List.getLast?_replicate]
    rw [if_neg (by omega)]
    rfl

/-- The extended hazard of a clipped-and-scaled shape is the clipped,
scaled extended hazard of the shape. -/
lemma hazardAt_scaledHazard {shape : List ℚ} (hne : shape ≠ []) (m : ℚ) (w : Nat) :
    hazardAt (scaledHazard shape m) w = clip01 (m * hazardAt shape w) := by
  unfold hazardAt scaledHazard
  by_cases hw : w < shape.length
  · rw [dif_pos (by simpa using hw), dif_pos hw]
    simp
  · rw [dif_neg (by simpa using hw), dif_neg hw]
    rw [List.getLast?_map, List.getLast?_eq_getLast shape hne]
    rfl

/-- Appending copies of the last entry does not change the extended
hazard at any week. -/
lemma hazardAt_append_replicate {h : List ℚ} (hne : h ≠ []) (k w : Nat) :
    hazardAt (h ++ List.replicate k (h.getLast hne)) w = hazardAt h w := by
  unfold hazardAt
  by_cases hw : w < h.length
  · rw [dif_pos (by simp; omega), dif_pos hw]
    simp only [List.get_eq_getElem]
    exact List.getElem_append_left hw
  · rw [dif_neg hw]
    rw [List.getLast?_eq_getLast h hne]
    by_cases hw2 : w < h.length + k
    · rw [dif_pos (by simpa using hw2)]
      simp only [List.get_eq_getElem]
      rw [List.getElem_append_right (by omega)]
      simp
    · rw [dif_neg (by simpa using hw2)]
      rw [List.getLast?_append, List.getLast?_replicate]
      rcases Nat.eq_zero_or_pos k with hk | hk
      · rw [if_pos hk]
        rw [List.getLast?_eq_getLast h hne]
        rfl
      · rw [if_neg (by omega)]
        rfl

/-- When the extended hazard is the constant `c`, the survival list is the
geometric sequence `S·(1−c)^j` for as long as it is retained. -/
lemma survGo_geom {h : List ℚ} {c : ℚ} (hc : ∀ w, hazardAt h w = c) :
    ∀ (fuel w : Nat) (S : ℚ) (j : Nat) (x : ℚ),
      (survGo h fuel w S).get? j = some x → x = S * (1 - c) ^ j := by
  intro fuel
  induction fuel with
  | zero => intro w S j x hx; simp [survGo] at hx
  | succ n ih =>
      intro w S j x hx
      simp only [survGo, hc w] at hx
      cases j with
      | zero =>
          rw [List.get?_cons_zero] at hx
          simp only [Option.some.injEq] at hx
          rw [← hx, pow_zero, mul_one]
      | succ j =>
          rw [List.get?_cons_succ] at hx
          split at hx
          · simp at hx
          · have := ih (w + 1) (S * (1 - c)) j x hx
            rw [this]
            ring

/-- On a spike hazard array (`1` at index `a`, `0` before it) the survival
loop retains exactly the weeks `0..a`, each with survival `1`. -/
lemma survGo_spike (a b : Nat) :
    ∀ (fuel w : Nat), w ≤ a → a - w < fuel →
      survGo (List.replicate a 0 ++ 1 :: List.replicate b 0) fuel w 1 =
        List.replicate (a - w + 1) 1 := by
  intro fuel
  induction fuel with
  | zero => intro w _ hfw; omega
  | succ n ih =>
      intro w hw hfw
      have hlen : w < (List.replicate a (0:ℚ) ++ (1:ℚ) :: List.replicate b 0).length := by
        simp
        omega
      rcases Nat.lt_or_ge w a with hwa | hwa
      · have hz : hazardAt (List.replicate a (0:ℚ) ++ (1:ℚ) :: List.replicate b 0) w = 0 := by
          rw [hazardAt_of_lt hlen]
          simp only [List.get_eq_getElem]
          rw [List.getElem_append_left (by simpa using hwa)]
          simp
        simp only [survGo, hz]
        rw [if_neg (by norm_num [eps])]
        rw [show (1:ℚ) * (1 - 0) = 1 by norm_num]
        rw [ih (w + 1) (by omega) (by omega)]
        have harith : a - w + 1 = (a - (w + 1) + 1) + 1 := by omega
        rw [harith]
        simp [List.replicate_succ]
      · have hwa2 : w = a := by omega
        subst hwa2
        have hz : hazardAt (List.replicate w (0:ℚ) ++ (1:ℚ) :: List.replicate b 0) w = 1 := by
          rw [hazardAt_of_lt hlen]
          simp only [List.get_eq_getElem]
          rw [List.getElem_append_right (by simp)]
          simp
        simp only [survGo, hz]
        rw [if_pos (by norm_num [eps])]
        simp

lemma le_foldr_max (l : List ℚ) (x : ℚ) (hx : x ∈ l) : x ≤ l.foldr max 0 := by
  induction l with
  | nil => simp at hx
  | cons a t ih =>
      rcases List.mem_cons.1 hx with rfl | hx
      · exact le_max_left _ _
      · exact le_trans (ih hx) (le_max_right _ _)

lemma map_max_zero_of_nonneg {l : List ℚ} (h : ∀ x ∈ l, 0 ≤ x) :
    l.map (fun s => max s 0) = l := by
  induction l with
  | nil => rfl
  | cons a t ih =>
      simp only [List.map_cons]
      rw [max_eq_left (h a (List.mem_cons_self a t)), ih (fun x hx => h x (List.mem_cons_of_mem a hx))]

lemma foldr_max_zero {l : List ℚ} (h : ∀ x ∈ l, x = 0) : l.foldr max 0 = 0 := by
  induction l with
  | nil => rfl
  | cons a t ih =>
      simp only [List.foldr_cons]
      rw [h a (List.mem_cons_self a t), ih (fun x hx => h x (List.mem_cons_of_mem a hx))]
      simp

/-- The bisection keeps as invariant that the `hi` end of the bracket
yields an expected cycle length at most the target. -/
lemma bisectGo_hi (shape : List ℚ) (L : ℚ) :
    ∀ (n : Nat) (lo hi : ℚ),
      expected_cycle_length_from_hazard (scaledHazard shape hi) 400 ≤ L →
      expected_cycle_length_from_hazard
        (scaledHazard shape (bisectGo shape L n (lo, hi)).2) 400 ≤ L := by
  intro n
  induction n with
  | zero => intro lo hi hhi; exact hhi
  | succ m ih =>
      intro lo hi hhi
      simp only [bisectGo]
      split
      · exact ih _ _ hhi
      · next hEL => exact ih _ _ (le_of_not_lt hEL)

/-! ### The claims

Concrete witnesses and counterexamples evaluate the routines on explicit
inputs by kernel reduction; the rational arithmetic operations are made
semireducible for that purpose (they are `irreducible` by default). -/

set_option allowUnsafeReducibility true
attribute [semireducible] Rat.add Rat.mul Rat.inv Rat.div Rat.sub Rat.neg

set_option maxRecDepth 2000000

/-- C1: for every nonempty hazard array with all values in `[0, 1)` and
positive horizon, the distribution returned by `time_share_from_hazard`
sums to exactly `1` (the floating-point tolerance of the claim is not even
needed in exact arithmetic) and every entry is nonnegative. -/
theorem C1_time_share_sums_to_one_and_nonneg (h : List ℚ) (horizon : Nat)
    (hne : h ≠ []) (hb : ∀ x ∈ h, 0 ≤ x ∧ x < 1) (hpos : 0 < horizon) :
    (time_share_from_hazard h horizon).sum = 1 ∧
      ∀ p ∈ time_share_from_hazard h horizon, 0 ≤ p := by
  have hblt : ∀ w, hazardAt h w < 1 := fun w => (hb _ (hazardAt_mem hne w)).2
  have hall : ∀ x ∈ survGo h horizon 0 1, 0 < x :=
    survGo_pos hblt horizon 0 1 one_pos
  have hsum : 0 < (survGo h horizon 0 1).sum :=
    List.sum_pos _ hall (survGo_ne_nil h horizon 0 1 hpos)
  constructor
  · rw [time_share_from_hazard, sum_map_div, div_self (ne_of_gt hsum)]
  · intro p hp
    rw [time_share_from_hazard] at hp
    obtain ⟨s, hs, rfl⟩ := List.mem_map.1 hp
    exact div_nonneg (le_of_lt (hall s hs)) (le_of_lt hsum)

theorem C1_witness :
    (([(1:ℚ)/2] ≠ []) ∧ (∀ x ∈ [(1:ℚ)/2], 0 ≤ x ∧ x < 1) ∧ 0 < 400) ∧
      (time_share_from_hazard [1/2] 400).sum = 1 ∧
        ∀ p ∈ time_share_from_hazard [1/2] 400, 0 ≤ p :=
  ⟨⟨by decide, by decide, by decide⟩,
    C1_time_share_sums_to_one_and_nonneg [1/2] 400 (by decide) (by decide) (by decide)⟩

/-- C7: for every nonempty hazard array and every horizon,
`expected_cycle_length_from_hazard` returns exactly the sum of the
unnormalized survival values that `time_share_from_hazard` accumulates
(`survGo`): the two loops traverse the same survival recurrence with the
same `1e-10` early-termination threshold. -/
theorem C7_ecl_equals_survival_sum (h : List ℚ) (horizon : Nat) (hne : h ≠ []) :
    expected_cycle_length_from_hazard h horizon = (survGo h horizon 0 1).sum :=
  eclGo_eq_sum_survGo h horizon 0 1

theorem C7_witness :
    ([(1:ℚ)/2] ≠ []) ∧
      expected_cycle_length_from_hazard [1/2] 400 = (survGo [1/2] 400 0 1).sum :=
  ⟨by decide, C7_ecl_equals_survival_sum [1/2] 400 (by decide)⟩

/-- C8: the converter is deterministic: its output depends only on the
argument values, so two invocations on the same input yield identical
output (the embedding is a pure function of the hazard array and the
horizon; there is no hidden mutable state). -/
theorem C8_deterministic (h1 h2 : List ℚ) (n1 n2 : Nat)
    (hh : h1 = h2) (hn : n1 = n2) :
    time_share_from_hazard h1 n1 = time_share_from_hazard h2 n2 := by
  rw [hh, hn]

theorem C8_witness :
    time_share_from_hazard [1/2] 400 = time_share_from_hazard [1/2] 400 :=
  C8_deterministic [1/2] [1/2] 400 400 rfl rfl

/-- C3: on a constant hazard array `h[w] = c` with `0 ≤ c < 1`, every
retained survival value is `S[w] = (1−c)^w`, and the returned distribution
is the truncated geometric `π[w] = (1−c)^w / Σ_j (1−c)^j` over the
retained weeks. -/
theorem C3_constant_hazard_geometric (c : ℚ) (n w horizon : Nat)
    (hc0 : 0 ≤ c) (hc1 : c < 1) (hn : 1 ≤ n)
    (hw : w < (survGo (List.replicate n c) horizon 0 1).length) :
    (survGo (List.replicate n c) horizon 0 1).get? w = some ((1 - c) ^ w) ∧
      (time_share_from_hazard (List.replicate n c) horizon).get? w =
        some ((1 - c) ^ w / (survGo (List.replicate n c) horizon 0 1).sum) := by
  have hc : ∀ v, hazardAt (List.replicate n c) v = c := hazardAt_replicate n c hn
  have hget : (survGo (List.replicate n c) horizon 0 1).get? w = some ((1 - c) ^ w) := by
    rw [List.get?_eq_get hw]
    have := survGo_geom hc horizon 0 1 w
      ((survGo (List.replicate n c) horizon 0 1).get ⟨w, hw⟩)
      (by rw [List.get?_eq_get hw])
    rw [this, one_mul]
  refine ⟨hget, ?_⟩
  rw [time_share_from_hazard, List.get?_map, hget]
  simp

theorem C3_witness :
    ((0:ℚ) ≤ 1/2 ∧ (1:ℚ)/2 < 1 ∧ 1 ≤ 1 ∧
        3 < (survGo (List.replicate 1 ((1:ℚ)/2)) 400 0 1).length) ∧
      (survGo (List.replicate 1 ((1:ℚ)/2)) 400 0 1).get? 3 = some ((1 - 1/2) ^ 3) ∧
        (time_share_from_hazard (List.replicate 1 ((1:ℚ)/2)) 400).get? 3 =
          some ((1 - 1/2) ^ 3 / (survGo (List.replicate 1 ((1:ℚ)/2)) 400 0 1).sum) :=
  ⟨⟨by norm_num, by norm_num, le_refl 1, by decide⟩,
    C3_constant_hazard_geometric (1/2) 1 3 400 (by norm_num) (by norm_num)
      (le_refl 1) (by decide)⟩

/-- C4: on a spike hazard array (`1` at index `a`, `0` at the other
indices) with the spike below the horizon, the returned distribution is
exactly uniform on weeks `0..a`: the list of length `a+1` whose every
entry is `1/(a+1)`; no week beyond `a` carries any mass (the list ends
there). -/
theorem C4_spike_uniform (a b horizon : Nat) (ha : a < horizon) :
    time_share_from_hazard (List.replicate a 0 ++ 1 :: List.replicate b 0) horizon =
      List.replicate (a + 1) (1 / ((a : ℚ) + 1)) := by
  have hs : survGo (List.replicate a (0:ℚ) ++ (1:ℚ) :: List.replicate b 0) horizon 0 1 =
      List.replicate (a + 1) 1 := by
    have := survGo_spike a b horizon 0 (Nat.zero_le a) (by omega)
    simpa using this
  rw [time_share_from_hazard, hs]
  rw [List.sum_replicate, List.map_replicate]
  have hcast : ((a + 1) : ℕ) • (1:ℚ) = (a:ℚ) + 1 := by
    rw [nsmul_eq_mul, mul_one]
    push_cast
    ring
  rw [hcast]

theorem C4_witness :
    2 < 400 ∧
      time_share_from_hazard (List.replicate 2 0 ++ 1 :: List.replicate 0 0) 400 =
        List.replicate (2 + 1) (1 / ((2 : ℚ) + 1)) :=
  ⟨by norm_num, C4_spike_uniform 2 0 400 (by norm_num)⟩

/-- C5 (counterexample): the claimed strict decrease fails.  With
`shape = [1]`, `m1 = 2 < m2 = 3`, both scaled hazards are clipped to
`0.999`, so the two expected cycle lengths coincide and the one for `m2`
is not shorter than the one for `m1`. -/
theorem C5_counterexample :
    (0:ℚ) ≤ 2 ∧ (2:ℚ) < 3 ∧ (∀ x ∈ [(1:ℚ)], 0 ≤ x) ∧
      ¬ (expected_cycle_length_from_hazard (scaledHazard [1] 3) 400 <
          expected_cycle_length_from_hazard (scaledHazard [1] 2) 400) := by
  refine ⟨by norm_num, by norm_num, by decide, ?_⟩
  decide

/-- C5 (amended): for a nonempty nonnegative shape and multipliers
`0 ≤ m1 ≤ m2`, the expected cycle length of `clip(m2·shape, 0, 0.999)` is
at most (not necessarily strictly less than: the clipping can saturate)
that of `clip(m1·shape, 0, 0.999)`.  This non-strict monotonicity is what
the bisection in `scale_hazard_to_target_length` relies on. -/
theorem C5_ecl_antitone_in_multiplier (shape : List ℚ) (m1 m2 : ℚ) (horizon : Nat)
    (hne : shape ≠ []) (hnn : ∀ x ∈ shape, 0 ≤ x) (hm1 : 0 ≤ m1) (hm : m1 ≤ m2) :
    expected_cycle_length_from_hazard (scaledHazard shape m2) horizon ≤
      expected_cycle_length_from_hazard (scaledHazard shape m1) horizon := by
  have hAB : ∀ w, hazardAt (scaledHazard shape m1) w ≤ hazardAt (scaledHazard shape m2) w := by
    intro w
    rw [hazardAt_scaledHazard hne, hazardAt_scaledHazard hne]
    exact clip01_mono (mul_le_mul_of_nonneg_right hm (hnn _ (hazardAt_mem hne w)))
  have hB1 : ∀ w, hazardAt (scaledHazard shape m2) w ≤ 1 := by
    intro w
    rw [hazardAt_scaledHazard hne]
    exact le_trans (clip01_le _) (by norm_num)
  exact eclGo_mono hAB hB1 horizon 0 1 1 zero_le_one le_rfl

theorem C5_witness :
    (([(1:ℚ)/10] ≠ []) ∧ (∀ x ∈ [(1:ℚ)/10], 0 ≤ x) ∧ (0:ℚ) ≤ 1 ∧ (1:ℚ) ≤ 2) ∧
      expected_cycle_length_from_hazard (scaledHazard [1/10] 2) 400 ≤
        expected_cycle_length_from_hazard (scaledHazard [1/10] 1) 400 :=
  ⟨⟨by decide, by decide, by norm_num, by norm_num⟩,
    C5_ecl_antitone_in_multiplier [1/10] 1 2 400 (by decide) (by decide)
      (by norm_num) (by norm_num)⟩

/-- C6: on a nonempty all-zero shape and a positive target length `L`, the
scaler skips the bisection and returns the flat fallback: an array of the
same length whose every entry is `1/L`. -/
theorem C6_all_zero_flat_fallback (shape : List ℚ) (L : ℚ)
    (hne : shape ≠ []) (h0 : ∀ x ∈ shape, x = 0) (hL : 0 < L) :
    scale_hazard_to_target_length shape L = List.replicate shape.length (1 / L) := by
  have hsh : shape.map (fun s => max s 0) = shape :=
    map_max_zero_of_nonneg (fun x hx => le_of_eq (h0 x hx).symm)
  simp only [scale_hazard_to_target_length, hsh]
  rw [if_pos (foldr_max_zero h0)]
  exact List.map_const' shape (1 / L)

theorem C6_witness :
    ((List.replicate 3 (0:ℚ) ≠ []) ∧ (∀ x ∈ List.replicate 3 (0:ℚ), x = 0) ∧ (0:ℚ) < 53) ∧
      scale_hazard_to_target_length (List.replicate 3 0) 53 =
        List.replicate (List.replicate 3 (0:ℚ)).length (1 / 53) :=
  ⟨⟨by decide, by decide, by norm_num⟩,
    C6_all_zero_flat_fallback (List.replicate 3 0) 53 (by decide) (by decide) (by norm_num)⟩

/-- C9: for a nonnegative, not-all-zero shape and positive target `L`, the
array returned by `scale_hazard_to_target_length` has the same length as
the shape and every entry lies in `[0, 0.999]` (it is the final
`clip(hi·shape, 0, 0.999)`). -/
theorem C9_scaled_output_range (shape : List ℚ) (L : ℚ)
    (hnn : ∀ x ∈ shape, 0 ≤ x) (hnz : ∃ x ∈ shape, x ≠ 0) (hL : 0 < L) :
    (scale_hazard_to_target_length shape L).length = shape.length ∧
      ∀ y ∈ scale_hazard_to_target_length shape L, 0 ≤ y ∧ y ≤ 999 / 1000 := by
  obtain ⟨x, hx, hx0⟩ := hnz
  have hxpos : 0 < x := lt_of_le_of_ne (hnn x hx) (Ne.symm hx0)
  have hmax : ¬ shape.foldr max 0 = 0 := by
    have := le_foldr_max shape x hx
    intro hc
    rw [hc] at this
    linarith
  simp only [scale_hazard_to_target_length, map_max_zero_of_nonneg hnn]
  rw [if_neg hmax]
  constructor
  · simp [scaledHazard]
  · intro y hy
    simp only [scaledHazard, List.mem_map] at hy
    obtain ⟨s, _, rfl⟩ := hy
    exact ⟨clip01_nonneg _, clip01_le _⟩

theorem C9_witness :
    ((∀ x ∈ [(2:ℚ)], 0 ≤ x) ∧ (∃ x ∈ [(2:ℚ)], x ≠ 0) ∧ (0:ℚ) < 53) ∧
      (scale_hazard_to_target_length [2] 53).length = [(2:ℚ)].length ∧
        ∀ y ∈ scale_hazard_to_target_length [2] 53, 0 ≤ y ∧ y ≤ 999 / 1000 :=
  ⟨⟨by decide, ⟨2, by decide⟩, by norm_num⟩,
    C9_scaled_output_range [2] 53 (by decide) ⟨2, by decide⟩ (by norm_num)⟩

/-- C2 (counterexample): the calibration does not reach every positive
target.  With `shape = [1]` and `L = 1/2` the hazard is clipped at `0.999`
throughout, the smallest achievable expected cycle length is
`1.001001001`, and the result misses the target by far more than 1 %. -/
theorem C2_counterexample :
    (0:ℚ) < 1/2 ∧ (∀ x ∈ [(1:ℚ)], 0 ≤ x) ∧
      ¬ (|expected_cycle_length_from_hazard
            (scale_hazard_to_target_length [1] (1/2)) 400 - 1/2| ≤ (1/100) * (1/2)) := by
  refine ⟨by norm_num, by decide, ?_⟩
  decide

/-- Targets no smaller than the expected cycle length already achieved by
the fully scaled hazard are met from above: along the bisection the `hi`
end of the bracket always yields an expected cycle length at most the
target, and the returned hazard uses the final `hi`. -/
theorem C2_amended_upper_bracket (shape : List ℚ) (L : ℚ)
    (hnn : ∀ x ∈ shape, 0 ≤ x) (hnz : ∃ x ∈ shape, x ≠ 0)
    (hach : expected_cycle_length_from_hazard (scaledHazard shape 50) 400 ≤ L) :
    expected_cycle_length_from_hazard (scale_hazard_to_target_length shape L) 400 ≤ L := by
  obtain ⟨x, hx, hx0⟩ := hnz
  have hxpos : 0 < x := lt_of_le_of_ne (hnn x hx) (Ne.symm hx0)
  have hmax : ¬ shape.foldr max 0 = 0 := by
    have := le_foldr_max shape x hx
    intro hc
    rw [hc] at this
    linarith
  simp only [scale_hazard_to_target_length, map_max_zero_of_nonneg hnn]
  rw [if_neg hmax]
  exact bisectGo_hi shape L 60 0 50 hach

theorem C2_witness :
    ((∀ x ∈ [(1:ℚ)], 0 ≤ x) ∧ (∃ x ∈ [(1:ℚ)], x ≠ 0) ∧
        expected_cycle_length_from_hazard (scaledHazard [1] 50) 400 ≤ 2) ∧
      expected_cycle_length_from_hazard (scale_hazard_to_target_length [1] 2) 400 ≤ 2 :=
  ⟨⟨by decide, ⟨1, by decide⟩, by decide⟩,
    C2_amended_upper_bracket [1] 2 (by decide) ⟨1, by decide⟩ (by decide)⟩

/-- C10: both routines treat every week at or past the end of a nonempty
hazard array as having the array's last value, so appending any number of
copies of the last entry changes neither the expected cycle length nor the
time-share distribution. -/
theorem C10_extend_with_last (h : List ℚ) (k horizon : Nat) (hne : h ≠ [])
    (hlen : h.length < horizon) :
    (∀ w, h.length ≤ w → hazardAt h w = h.getLast hne) ∧
      expected_cycle_length_from_hazard (h ++ List.replicate k (h.getLast hne)) horizon =
        expected_cycle_length_from_hazard h horizon ∧
      time_share_from_hazard (h ++ List.replicate k (h.getLast hne)) horizon =
        time_share_from_hazard h horizon := by
  have hcongr : ∀ w, hazardAt (h ++ List.replicate k (h.getLast hne)) w = hazardAt h w :=
    hazardAt_append_replicate hne k
  refine ⟨?_, ?_, ?_⟩
  · intro w hw
    rw [hazardAt_of_ge (by omega), List.getLast?_eq_getLast h hne]
    rfl
  · exact eclGo_congr hcongr horizon 0 1
  · rw [time_share_from_hazard, time_share_from_hazard, survGo_congr hcongr horizon 0 1]

theorem C10_witness :
    (([(1:ℚ)/2, 1/4] ≠ []) ∧ 2 < 400) ∧
      time_share_from_hazard
          ([(1:ℚ)/2, 1/4] ++ List.replicate 2 ([(1:ℚ)/2, 1/4].getLast (by simp))) 400 =
        time_share_from_hazard [(1:ℚ)/2, 1/4] 400 :=
  ⟨⟨by decide, by norm_num⟩,
    (C10_extend_with_last [(1:ℚ)/2, 1/4] 2 400 (by simp) (by norm_num)).2.2⟩
